import Mathlib

/-!
Verification of the JSON Preview & Path-Filter Engine of the formiko
repository (`formiko/json_preview.py`, with the alternate renderer in
`formiko/preview/json.py`).

The shallow embedding below translates, from the source:
  * the parsed JSON document (`JsonValue`),
  * the path-string codec used by `_value_to_html` and
    `apply_path_filter._task.collect_paths` (`childPath`, `encode`),
  * the filter task `apply_path_filter._task` (`task`), its completion
    handler `_done` (`done`), and the post-load script applied by
    `_render` (`applyScript`, `render`),
  * the HTML renderer `_value_to_html` / `_generate_html`
    (`valueToHtml`, `generateBody`, `generateHtml`) together with the
    line-counting serialization `json.dumps(..., indent, sort_keys=True)`
    (`dumps`, `lineCount`).

The JSONPath evaluator (`jsonpath_ng`) is an external library, not part
of this repository; following the specification's interface description,
a match is modelled by the chain of path segments (field name or array
index) from the root to the matched node, navigable context-by-context,
with `str(full_path)` rendering the root as `"$"` and otherwise joining
segments with dots exactly as the repository's own path builder does.
-/

/-- The parsed JSON document (result of `json.loads`): a tagged union of
null, booleans, numbers, strings, objects (ordered field list) and
arrays.  Numbers are modelled as integers; none of the verified claims
depends on non-integral numerics. -/
inductive JsonValue where
  | null : JsonValue
  | bool (b : Bool) : JsonValue
  | num (n : Int) : JsonValue
  | str (s : String) : JsonValue
  | obj (fields : List (String × JsonValue)) : JsonValue
  | arr (items : List JsonValue) : JsonValue

/-- A path segment: an object field or an array index. -/
inductive Seg where
  | field (name : String) : Seg
  | index (i : Nat) : Seg
deriving DecidableEq

/-- Textual form of one segment: a field renders as its name, an array
index as `[i]` (`f"[{i}]"` in the source). -/
def segStr : Seg → String
  | .field name => name
  | .index i => "[" ++ Nat.repr i ++ "]"

/-- One step of the path builder used identically in `_value_to_html`
and `collect_paths`: `new_path = f"{path}.{seg}" if path else seg`.
The separator dot is added only when the accumulated path is nonempty. -/
def childPath (path : String) (s : Seg) : String :=
  if path = "" then segStr s else path ++ "." ++ segStr s

/-- Path-string encoding of a whole segment sequence, root first
(the root itself is the empty string). -/
def encode (segs : List Seg) : String :=
  segs.foldl childPath ""

/-- `str(full_path)` of the external evaluator: the root match prints as
`"$"`, any other node joins its segments with the repository's dot
convention. -/
def fullPathStr (segs : List Seg) : String :=
  if segs = [] then "$" else encode segs

/-- Normalization applied by `_task` to every evaluator path string:
`if path_str == "$": path_str = ""`. -/
def normPath (s : String) : String :=
  if s = "$" then "" else s

/-- The context chain of a match (the `current = m; while current:
current = current.context` walk): the sequence of all prefixes of its
segment list, longest (the match itself) first, down to the root `[]`. -/
def chain (m : List Seg) : List (List Seg) :=
  (List.range (m.length + 1)).reverse.map (fun k => m.take k)

mutual
/-- `collect_paths` of `apply_path_filter._task`: the set of path
strings of every node of `val`, the node itself included. -/
def collect_paths : JsonValue → String → Finset String
  | .obj fields, path => {path} ∪ collectFields fields path
  | .arr items, path => {path} ∪ collectItems items 0 path
  | _, path => {path}

/-- Object branch of `collect_paths`: recurse into each field. -/
def collectFields : List (String × JsonValue) → String → Finset String
  | [], _ => ∅
  | (k, v) :: rest, path =>
      collect_paths v (childPath path (.field k)) ∪ collectFields rest path

/-- Array branch of `collect_paths`: recurse into each element with its
`enumerate` index. -/
def collectItems : List JsonValue → Nat → String → Finset String
  | [], _, _ => ∅
  | v :: rest, i, path =>
      collect_paths v (childPath path (.index i)) ∪ collectItems rest (i + 1) path
end

mutual
/-- All tree positions of a document, as segment sequences from the
root; the root position `[]` is always present. -/
def positions : JsonValue → List (List Seg)
  | .obj fields => [] :: positionsFields fields
  | .arr items => [] :: positionsItems items 0
  | _ => [[]]

/-- Positions below an object: each field prepends its segment to every
position of its value. -/
def positionsFields : List (String × JsonValue) → List (List Seg)
  | [] => []
  | (k, v) :: rest =>
      (positions v).map (fun p => Seg.field k :: p) ++ positionsFields rest

/-- Positions below an array: each element prepends its index segment to
every position of its value. -/
def positionsItems : List JsonValue → Nat → List (List Seg)
  | [], _ => []
  | v :: rest, i =>
      (positions v).map (fun p => Seg.index i :: p) ++ positionsItems rest (i + 1)
end

/-- Python `str.strip()` as used by `apply_path_filter`: drop whitespace
from both ends. -/
def strip (s : String) : String :=
  ⟨((s.data.dropWhile Char.isWhitespace).reverse.dropWhile Char.isWhitespace).reverse⟩

/-- The guard `if not expression or not expression.strip():` of `_task`:
the expression is `None`, empty, or whitespace-only. -/
def isBlank (expression : Option String) : Bool :=
  match expression with
  | none => true
  | some s => s == "" || strip s == ""

/-- Behaviour of the external JSONPath evaluator on a non-blank
expression: `parse` may raise a parse error, `find` may raise any other
exception, or evaluation yields a list of matches, each given by its
segment chain from the root. -/
inductive EvalOutcome where
  | parseError (msg : String) : EvalOutcome
  | evalError (msg : String) : EvalOutcome
  | matches (ms : List (List Seg)) : EvalOutcome

/-- The tuple returned by `apply_path_filter._task`:
`(self._json_data, highlights, expands, expression)`. -/
structure FilterResult where
  data : JsonValue
  highlights : List String
  expands : Finset String
  expr : String

/-- The `expands` set built by the match loop of `_task`: starting from
`{""}`, walk each match's context chain and add the normalized path
string of every node on it. -/
def taskExpands (ms : List (List Seg)) : Finset String :=
  ms.foldl
    (fun acc m =>
      (chain m).foldl (fun a p => insert (normPath (fullPathStr p)) a) acc)
    {""}

/-- `apply_path_filter._task`.  A blank expression resets: no
highlights, every node path expanded, empty echoed expression.
Otherwise a parse failure propagates its message, any other evaluation
failure is wrapped as `JsonPathParserError("Filter error")`, and a
successful evaluation highlights each match (a root match as `""`) and
expands every path string on each match's context chain, starting from
the seed set `{""}`. -/
def task (jsonData : JsonValue) (expression : Option String)
    (outcome : EvalOutcome) : Except String FilterResult :=
  if isBlank expression then
    .ok ⟨jsonData, [], collect_paths jsonData "", ""⟩
  else
    match outcome with
    | .parseError msg => .error msg
    | .evalError _ => .error "Filter error"
    | .matches ms =>
        .ok ⟨jsonData,
             ms.map (fun m => normPath (fullPathStr m)),
             taskExpands ms,
             (expression.getD "")⟩

/-- What `apply_path_filter._done` schedules on the UI thread: an
optional error dialog message and the five `_render` arguments
(`data, highlights, expands, expr, len(highlights)`).  On a
`JsonPathParserError` the reset tuple
`self._json_data, [], {""}, ""` is substituted. -/
structure DoneResult where
  dialog : Option String
  data : JsonValue
  highlights : List String
  expands : Finset String
  expr : String
  count : Nat

/-- `apply_path_filter._done`. -/
def done (jsonData : JsonValue) (r : Except String FilterResult) : DoneResult :=
  match r with
  | .ok fr => ⟨none, fr.data, fr.highlights, fr.expands, fr.expr, fr.highlights.length⟩
  | .error msg => ⟨some msg, jsonData, [], {""}, "", 0⟩

/-- Effect of the post-load script of `_render` on the freshly loaded
document, as the pair (set of containers left collapsed, set of nodes
highlighted).  With a nonempty expression the script first collapses
every `.jblock` container, then removes the collapsed state from every
present node of `expands`, then highlights every present node of
`highlights`; with an empty expression it removes the collapsed state
from every container and highlights nothing. -/
def applyScript (containers allNodes : Finset String) (expr : String)
    (highlights : List String) (expands : Finset String) :
    Finset String × Finset String :=
  if expr ≠ "" then
    (containers \ expands, allNodes.filter (fun p => p ∈ highlights))
  else
    (∅, ∅)

mutual
/-- Paths of the container (`.jblock`, i.e. object or array) nodes of a
document; these are the nodes the collapse script acts on. -/
def containerPaths : JsonValue → String → Finset String
  | .obj fields, path => {path} ∪ containerFields fields path
  | .arr items, path => {path} ∪ containerItems items 0 path
  | _, _ => ∅

/-- Object branch of `containerPaths`. -/
def containerFields : List (String × JsonValue) → String → Finset String
  | [], _ => ∅
  | (k, v) :: rest, path =>
      containerPaths v (childPath path (.field k)) ∪ containerFields rest path

/-- Array branch of `containerPaths`. -/
def containerItems : List JsonValue → Nat → String → Finset String
  | [], _, _ => ∅
  | v :: rest, i, path =>
      containerPaths v (childPath path (.index i)) ∪ containerItems rest (i + 1) path
end

/-- Outcome of `_render`: whether an HTML document was loaded, the
resulting collapsed/highlighted node sets after the post-load script,
and the invocation of the filter-result callback.  When the webview is
absent `_render` returns before doing anything; the callback fires only
when one is registered. -/
structure RenderEffect where
  loaded : Bool
  collapsedSet : Finset String
  highlightedSet : Finset String
  callback : Option (String × Nat)

/-- `_render`, abstracted over webview presence and callback
registration. -/
def render (webviewPresent hasCallback : Bool) (data : JsonValue)
    (highlights : List String) (expands : Finset String) (expr : String)
    (count : Nat) : RenderEffect :=
  if webviewPresent then
    let applied := applyScript (containerPaths data "") (collect_paths data "")
      expr highlights expands
    ⟨true, applied.1, applied.2, if hasCallback then some (expr, count) else none⟩
  else
    ⟨false, ∅, ∅, none⟩

/-- Full pipeline of one `apply_path_filter` request:
`_task` then `_done` then `_render`. -/
def pipeline (jsonData : JsonValue) (expression : Option String)
    (outcome : EvalOutcome) (webviewPresent hasCallback : Bool) :
    DoneResult × RenderEffect :=
  let d := done jsonData (task jsonData expression outcome)
  (d, render webviewPresent hasCallback d.data d.highlights d.expands d.expr d.count)

/-- `html.escape` on one character (quote=True: also `"` and the
apostrophe). -/
def escapeChar (c : Char) : String :=
  if c = '&' then "&amp;"
  else if c = '<' then "&lt;"
  else if c = '>' then "&gt;"
  else if c = '"' then "&quot;"
  else if c = Char.ofNat 39 then "&#x27;"
  else String.singleton c

/-- `html.escape`: the sequential replacements of the Python function
act characterwise, since no replacement output contains a character
replaced later. -/
def escape (s : String) : String :=
  String.join (s.data.map escapeChar)

/-- The `cls` list of `_value_to_html` joined with spaces:
`["jblock"]`, plus `"collapsed"` when `collapse and level > 0`. -/
def blockClasses (collapse : Bool) (level : Nat) : String :=
  String.intercalate " "
    ("jblock" :: (if collapse = true ∧ 0 < level then ["collapsed"] else []))

mutual
/-- `JSONPreview._value_to_html`: recursive JSON-to-HTML conversion.
Containers carry the class list `blockClasses` and their own
`data-jpath`; children recurse at `level + 1` with the extended path;
primitives are spans tagged `jstr`/`jbool`/`jnull`/`jnum` with their own
`data-jpath`.  Booleans render as `str(value).lower()`, i.e. `true` /
`false`, and are matched before the numeric fallback. -/
def valueToHtml : JsonValue → Bool → Nat → String → String
  | .obj fields, collapse, level, path =>
      "<div class=\"" ++ blockClasses collapse level ++ "\" data-jpath=\""
        ++ path ++ "\">"
        ++ "<span class=\x27jtoggler\x27></span>\x7b"
        ++ "<div class=\x27children\x27>" ++ objItems fields collapse level path
        ++ "</div>\x7d</div>"
  | .arr items, collapse, level, path =>
      "<div class=\"" ++ blockClasses collapse level ++ "\" data-jpath=\""
        ++ path ++ "\">"
        ++ "<span class=\"jtoggler\"></span>["
        ++ "<div class=\"children\">" ++ arrItems items 0 collapse level path
        ++ "</div>]</div>"
  | .str s, _, _, path =>
      "<span class=\"jstr\" data-jpath=\"" ++ path ++ "\">\"" ++ escape s
        ++ "\"</span>"
  | .bool b, _, _, path =>
      "<span class=\"jbool\" data-jpath=\"" ++ path ++ "\">"
        ++ (if b then "true" else "false") ++ "</span>"
  | .null, _, _, path =>
      "<span class=\"jnull\" data-jpath=\"" ++ path ++ "\">null</span>"
  | .num n, _, _, path =>
      "<span class=\"jnum\" data-jpath=\"" ++ path ++ "\">" ++ toString n
        ++ "</span>"

/-- The `items` loop of the object branch of `_value_to_html`. -/
def objItems : List (String × JsonValue) → Bool → Nat → String → String
  | [], _, _, _ => ""
  | (k, v) :: rest, collapse, level, path =>
      "<div class=\"jitem\"><span class=\"jkey\">\"" ++ escape k
        ++ "\"</span>: "
        ++ valueToHtml v collapse (level + 1) (childPath path (.field k))
        ++ "</div>"
        ++ objItems rest collapse level path

/-- The `items` loop of the array branch of `_value_to_html`. -/
def arrItems : List JsonValue → Nat → Bool → Nat → String → String
  | [], _, _, _, _ => ""
  | v :: rest, i, collapse, level, path =>
      "<div class=\"jitem\">"
        ++ valueToHtml v collapse (level + 1) (childPath path (.index i))
        ++ "</div>"
        ++ arrItems rest (i + 1) collapse level path
end

/-- One hexadecimal digit, lowercase. -/
def hexDigitChar (n : Nat) : Char :=
  if n < 10 then Char.ofNat (48 + n) else Char.ofNat (87 + n)

/-- JSON string escaping of one character as performed by `json.dumps`
with `ensure_ascii=False`. -/
def jsonEscapeChar (c : Char) : String :=
  if c = '"' then "\\\""
  else if c = '\\' then "\\\\"
  else if c = '\n' then "\\n"
  else if c = '\t' then "\\t"
  else if c = '\r' then "\\r"
  else if c = Char.ofNat 8 then "\\b"
  else if c = Char.ofNat 12 then "\\f"
  else if c.toNat < 32 then
    "\\u00" ++ String.mk [hexDigitChar (c.toNat / 16), hexDigitChar (c.toNat % 16)]
  else String.singleton c

/-- JSON string escaping (`json.dumps` body of a string literal). -/
def jsonEscape (s : String) : String :=
  String.join (s.data.map jsonEscapeChar)

/-- `indent * level` spaces of the indented `json.dumps` form. -/
def indentStr (n : Nat) : String :=
  String.mk (List.replicate n ' ')

mutual
/-- `json.dumps(data, indent=tw, sort_keys=True, ensure_ascii=False)`,
used by `_generate_html` solely to count output lines.  Object members
are rendered first and then ordered by key (`mergeSort` is stable, so
this equals serializing the key-sorted member list). -/
def dumps : JsonValue → Nat → Nat → String
  | .null, _, _ => "null"
  | .bool b, _, _ => if b then "true" else "false"
  | .num n, _, _ => toString n
  | .str s, _, _ => "\"" ++ jsonEscape s ++ "\""
  | .obj [], _, _ => "\x7b\x7d"
  | .obj (f :: rest), tw, level =>
      "\x7b\n"
        ++ String.intercalate ",\n"
             (((dumpsFields (f :: rest) tw (level + 1)).mergeSort
                 (fun a b => a.1 ≤ b.1)).map
               (fun kv => indentStr (tw * (level + 1)) ++ "\"" ++ jsonEscape kv.1
                 ++ "\": " ++ kv.2))
        ++ "\n" ++ indentStr (tw * level) ++ "\x7d"
  | .arr [], _, _ => "[]"
  | .arr (v :: rest), tw, level =>
      "[\n"
        ++ String.intercalate ",\n"
             ((dumpsItems (v :: rest) tw (level + 1)).map
               (fun line => indentStr (tw * (level + 1)) ++ line))
        ++ "\n" ++ indentStr (tw * level) ++ "]"

/-- Serialized object members, keys paired with rendered values. -/
def dumpsFields : List (String × JsonValue) → Nat → Nat → List (String × String)
  | [], _, _ => []
  | (k, v) :: rest, tw, level =>
      (k, dumps v tw level) :: dumpsFields rest tw level

/-- Serialized array elements. -/
def dumpsItems : List JsonValue → Nat → Nat → List String
  | [], _, _ => []
  | v :: rest, tw, level => dumps v tw level :: dumpsItems rest tw level
end

/-- `pretty.count("\n") + 1` of `_generate_html`. -/
def lineCount (data : JsonValue) (tw : Nat) : Nat :=
  (dumps data tw 0).data.count '\n' + 1

/-- The `<pre>` body built by `_generate_html`: the collapse flag is
`line_count > self.collapse_lines` and the root renders at level 0 with
the empty path. -/
def generateBody (data : JsonValue) (collapseLines tw : Nat) : String :=
  valueToHtml data (decide (collapseLines < lineCount data tw)) 0 ""

/-- The complete HTML document of `_generate_html`; the stylesheet and
script are package data files, taken as parameters. -/
def generateHtml (data : JsonValue) (collapseLines tw : Nat)
    (css js : String) : String :=
  "<html><head><meta charset=\x27utf-8\x27>"
    ++ "<style>" ++ css ++ "</style>"
    ++ "</head><body><pre>"
    ++ generateBody data collapseLines tw
    ++ "</pre>"
    ++ "<script>" ++ js ++ "</script>"
    ++ "</body></html>"

theorem mem_chain (m p : List Seg) :
    p ∈ chain m ↔ ∃ k, k ≤ m.length ∧ p = m.take k := by
  simp [chain, Nat.lt_succ_iff, eq_comm]

theorem mem_foldl_insert (f : List Seg → String) :
    ∀ (l : List (List Seg)) (acc : Finset String) (s : String),
      s ∈ l.foldl (fun a p => insert (f p) a) acc ↔ s ∈ acc ∨ ∃ p ∈ l, s = f p := by
  intro l
  induction l with
  | nil => simp
  | cons x xs ih =>
      intro acc s
      rw [List.foldl_cons, ih]
      simp only [Finset.mem_insert, List.mem_cons]
      constructor
      · rintro ((rfl | h) | ⟨p, hp, rfl⟩)
        · exact Or.inr ⟨x, Or.inl rfl, rfl⟩
        · exact Or.inl h
        · exact Or.inr ⟨p, Or.inr hp, rfl⟩
      · rintro (h | ⟨p, (rfl | hp), rfl⟩)
        · exact Or.inl (Or.inr h)
        · exact Or.inl (Or.inl rfl)
        · exact Or.inr ⟨p, hp, rfl⟩

theorem mem_chain_foldl (m : List Seg) (acc : Finset String) (s : String) :
    s ∈ (chain m).foldl (fun a p => insert (normPath (fullPathStr p)) a) acc ↔
      s ∈ acc ∨ ∃ k, k ≤ m.length ∧ s = normPath (fullPathStr (m.take k)) := by
  rw [mem_foldl_insert]
  constructor
  · rintro (h | ⟨p, hp, rfl⟩)
    · exact Or.inl h
    · obtain ⟨k, hk, rfl⟩ := (mem_chain m p).1 hp
      exact Or.inr ⟨k, hk, rfl⟩
  · rintro (h | ⟨k, hk, rfl⟩)
    · exact Or.inl h
    · exact Or.inr ⟨m.take k, (mem_chain m _).2 ⟨k, hk, rfl⟩, rfl⟩

theorem mem_taskExpands (ms : List (List Seg)) (s : String) :
    s ∈ taskExpands ms ↔
      s = "" ∨ ∃ m ∈ ms, ∃ k, k ≤ m.length ∧ s = normPath (fullPathStr (m.take k)) := by
  have aux : ∀ (l : List (List Seg)) (acc : Finset String),
      s ∈ l.foldl
          (fun acc m =>
            (chain m).foldl (fun a p => insert (normPath (fullPathStr p)) a) acc)
          acc ↔
        s ∈ acc ∨ ∃ m ∈ l, ∃ k, k ≤ m.length ∧ s = normPath (fullPathStr (m.take k)) := by
    intro l
    induction l with
    | nil => simp
    | cons x xs ih =>
        intro acc
        rw [List.foldl_cons, ih, mem_chain_foldl]
        simp only [List.mem_cons]
        constructor
        · rintro ((h | ⟨k, hk, rfl⟩) | ⟨m, hm, hk⟩)
          · exact Or.inl h
          · exact Or.inr ⟨x, Or.inl rfl, k, hk, rfl⟩
          · exact Or.inr ⟨m, Or.inr hm, hk⟩
        · rintro (h | ⟨m, (rfl | hm), hk⟩)
          · exact Or.inl (Or.inl h)
          · exact Or.inl (Or.inr hk)
          · exact Or.inr ⟨m, hm, hk⟩
  rw [taskExpands, aux]
  simp

/-- The normalized path string of the root prefix is the empty string:
`take 0` of any match is the root, printed `"$"` and normalized away. -/
theorem norm_fullPathStr_take_zero (m : List Seg) :
    normPath (fullPathStr (m.take 0)) = "" := by
  simp [fullPathStr, normPath]

/-- With at least one match the seed `{""}` is absorbed: the expand set
is exactly the normalized path strings of the nodes on the matches'
context chains. -/
theorem mem_taskExpands_of_ne_nil (ms : List (List Seg)) (hne : ms ≠ [])
    (s : String) :
    s ∈ taskExpands ms ↔
      ∃ m ∈ ms, ∃ k, k ≤ m.length ∧ s = normPath (fullPathStr (m.take k)) := by
  rw [mem_taskExpands]
  constructor
  · rintro (rfl | h)
    · obtain ⟨m, hm⟩ := List.exists_mem_of_ne_nil ms hne
      exact ⟨m, hm, 0, Nat.zero_le _, (norm_fullPathStr_take_zero m).symm⟩
    · exact h
  · exact Or.inr


mutual
/-- Characterization of `collect_paths`: it returns exactly the path
strings of the document's tree positions, each encoded relative to the
starting path. -/
theorem mem_collect_paths (v : JsonValue) (path s : String) :
    s ∈ collect_paths v path ↔ ∃ p ∈ positions v, s = p.foldl childPath path := by
  match v with
  | .null => simp [collect_paths, positions]
  | .bool _ => simp [collect_paths, positions]
  | .num _ => simp [collect_paths, positions]
  | .str _ => simp [collect_paths, positions]
  | .obj fields =>
      simp [collect_paths, positions, mem_collectFields fields path s,
        or_and_right, exists_or]
  | .arr items =>
      simp [collect_paths, positions, mem_collectItems items 0 path s,
        or_and_right, exists_or]

/-- Object-branch analogue of `mem_collect_paths`. -/
theorem mem_collectFields (fields : List (String × JsonValue)) (path s : String) :
    s ∈ collectFields fields path ↔
      ∃ p ∈ positionsFields fields, s = p.foldl childPath path := by
  match fields with
  | [] => simp [collectFields, positionsFields]
  | (k, v) :: rest =>
      simp [collectFields, positionsFields,
        mem_collect_paths v (childPath path (.field k)) s,
        mem_collectFields rest path s, or_and_right, exists_or]

/-- Array-branch analogue of `mem_collect_paths`. -/
theorem mem_collectItems (items : List JsonValue) (i : Nat) (path s : String) :
    s ∈ collectItems items i path ↔
      ∃ p ∈ positionsItems items i, s = p.foldl childPath path := by
  match items with
  | [] => simp [collectItems, positionsItems]
  | v :: rest =>
      simp [collectItems, positionsItems,
        mem_collect_paths v (childPath path (.index i)) s,
        mem_collectItems rest (i + 1) path s, or_and_right, exists_or]
end

theorem toDigitsCore_acc (b : Nat) :
    ∀ (fuel n : Nat) (ds : List Char),
      Nat.toDigitsCore b fuel n ds = Nat.toDigitsCore b fuel n [] ++ ds := by
  intro fuel
  induction fuel with
  | zero => intro n ds; simp [Nat.toDigitsCore]
  | succ f ih =>
      intro n ds
      simp only [Nat.toDigitsCore]
      by_cases h : n / b = 0
      · simp [h]
      · simp only [h, if_false]
        rw [ih (n / b) (Nat.digitChar (n % b) :: ds),
          ih (n / b) [Nat.digitChar (n % b)]]
        simp

theorem toDigitsCore_fuel :
    ∀ (n fuel fuel' : Nat), n < fuel → n < fuel' →
      ∀ ds, Nat.toDigitsCore 10 fuel n ds = Nat.toDigitsCore 10 fuel' n ds := by
  intro n
  induction n using Nat.strong_induction_on with
  | _ n ih =>
    intro fuel fuel' h h' ds
    match fuel, h, fuel', h' with
    | f + 1, h, f' + 1, h' =>
      simp only [Nat.toDigitsCore]
      by_cases hz : n / 10 = 0
      · simp [hz]
      · simp only [hz, if_false]
        have hn : 0 < n := by
          rcases Nat.eq_zero_or_pos n with rfl | hp
          · simp at hz
          · exact hp
        have hlt : n / 10 < n := Nat.div_lt_self hn (by omega)
        exact ih (n / 10) hlt f f' (by omega) (by omega) _

/-- Decimal value of one digit character. -/
def digitVal (c : Char) : Nat := c.toNat - 48

/-- Decimal value of a digit string. -/
def valDigits (ds : List Char) : Nat :=
  ds.foldl (fun acc c => 10 * acc + digitVal c) 0

theorem digitVal_digitChar : ∀ m, m < 10 → digitVal (Nat.digitChar m) = m := by
  decide

theorem valDigits_append_one (ds : List Char) (c : Char) :
    valDigits (ds ++ [c]) = 10 * valDigits ds + digitVal c := by
  simp [valDigits, List.foldl_append]

theorem valDigits_toDigits : ∀ n, valDigits (Nat.toDigits 10 n) = n := by
  intro n
  induction n using Nat.strong_induction_on with
  | _ n ih =>
    rw [Nat.toDigits]
    simp only [Nat.toDigitsCore]
    by_cases hz : n / 10 = 0
    · have h10 : n < 10 := by omega
      have hmod : n % 10 = n := Nat.mod_eq_of_lt h10
      simp [hz, valDigits, hmod, digitVal_digitChar n h10]
    · simp only [hz, if_false]
      have hn : 0 < n := by
        rcases Nat.eq_zero_or_pos n with rfl | hp
        · simp at hz
        · exact hp
      have hlt : n / 10 < n := Nat.div_lt_self hn (by omega)
      rw [toDigitsCore_acc 10 n (n / 10) [Nat.digitChar (n % 10)]]
      have hfuel : Nat.toDigitsCore 10 n (n / 10) [] = Nat.toDigits 10 (n / 10) := by
        rw [Nat.toDigits]
        exact toDigitsCore_fuel (n / 10) n (n / 10 + 1) (by omega) (by omega) []
      rw [hfuel, valDigits_append_one, ih (n / 10) hlt,
        digitVal_digitChar (n % 10) (Nat.mod_lt n (by omega))]
      omega

/-- The decimal printer of `Nat` is injective. -/
theorem natRepr_injective (m n : Nat) (h : Nat.repr m = Nat.repr n) : m = n := by
  have hd : Nat.toDigits 10 m = Nat.toDigits 10 n := by
    have := congrArg String.data h
    simpa [Nat.repr, List.asString] using this
  calc m = valDigits (Nat.toDigits 10 m) := (valDigits_toDigits m).symm
    _ = valDigits (Nat.toDigits 10 n) := by rw [hd]
    _ = n := valDigits_toDigits n

theorem isDigit_digitChar : ∀ m, m < 10 → (Nat.digitChar m).isDigit = true := by
  decide

theorem toDigitsCore_digits :
    ∀ (fuel n : Nat) (ds : List Char), (∀ c ∈ ds, c.isDigit = true) →
      ∀ c ∈ Nat.toDigitsCore 10 fuel n ds, c.isDigit = true := by
  intro fuel
  induction fuel with
  | zero => intro n ds h; simpa [Nat.toDigitsCore] using h
  | succ f ih =>
      intro n ds h
      simp only [Nat.toDigitsCore]
      by_cases hz : n / 10 = 0
      · simp only [hz, if_true]
        intro c hc
        rcases List.mem_cons.1 hc with rfl | hc
        · exact isDigit_digitChar _ (Nat.mod_lt n (by omega))
        · exact h c hc
      · simp only [hz, if_false]
        apply ih
        intro c hc
        rcases List.mem_cons.1 hc with rfl | hc
        · exact isDigit_digitChar _ (Nat.mod_lt n (by omega))
        · exact h c hc

/-- Every character of the decimal printing of a `Nat` is a digit. -/
theorem natRepr_digits (n : Nat) : ∀ c ∈ (Nat.repr n).data, c.isDigit = true := by
  have := toDigitsCore_digits (n + 1) n [] (by simp)
  simpa [Nat.repr, List.asString, Nat.toDigits] using this

/-- A string is nonempty iff its character list is. -/
theorem str_ne_empty_iff (s : String) : s ≠ "" ↔ s.data ≠ [] := by
  constructor
  · intro h hc
    exact h (String.ext hc)
  · intro h hc
    exact h (by rw [hc])

theorem childPath_ne_empty (path : String) (s : Seg) (h : path ≠ "") :
    childPath path s ≠ "" := by
  rw [childPath, if_neg h, str_ne_empty_iff]
  simp

theorem foldl_childPath_ne_empty :
    ∀ (r : List Seg) (path : String), path ≠ "" → r.foldl childPath path ≠ "" := by
  intro r
  induction r with
  | nil => intro path h; simpa using h
  | cons s r' ih =>
      intro path h
      rw [List.foldl_cons]
      exact ih (childPath path s) (childPath_ne_empty path s h)

/-- A nonempty segment list whose first segment prints nonempty has a
nonempty path string. -/
theorem encode_cons_ne_empty (s : Seg) (r : List Seg) (h : segStr s ≠ "") :
    encode (s :: r) ≠ "" := by
  rw [encode, List.foldl_cons]
  have h0 : childPath "" s = segStr s := by rw [childPath, if_pos rfl]
  rw [h0]
  exact foldl_childPath_ne_empty r (segStr s) h

theorem encode_append_last (segs : List Seg) (s : Seg) :
    encode (segs ++ [s]) = childPath (encode segs) s := by
  simp [encode, List.foldl_append]

/-- Character list of one segment's textual form. -/
def segChars (s : Seg) : List Char := (segStr s).data

/-- Character list of the path string of a nonempty segment sequence:
segment texts joined by dots. -/
def encChars : List Seg → List Char
  | [] => []
  | [s] => segChars s
  | s :: r => segChars s ++ '.' :: encChars r

/-- The dot-prefixed continuation of a path string. -/
def dotChars : List Seg → List Char
  | [] => []
  | s :: r => '.' :: segChars s ++ dotChars r

theorem encChars_eq : ∀ (r : List Seg) (s : Seg),
    encChars (s :: r) = segChars s ++ dotChars r := by
  intro r
  induction r with
  | nil => intro s; simp [encChars, dotChars]
  | cons s' r' ih =>
      intro s
      simp [encChars, dotChars, ih s']

theorem dotChars_cons (s : Seg) (r : List Seg) :
    dotChars (s :: r) = '.' :: encChars (s :: r) := by
  rw [encChars_eq]
  simp [dotChars]

theorem foldl_childPath_data :
    ∀ (r : List Seg) (path : String), path ≠ "" →
      (r.foldl childPath path).data = path.data ++ dotChars r := by
  intro r
  induction r with
  | nil => intro path _; simp [dotChars]
  | cons s r' ih =>
      intro path h
      rw [List.foldl_cons, childPath, if_neg h]
      rw [ih (path ++ "." ++ segStr s) (by rw [str_ne_empty_iff]; simp)]
      simp [dotChars, segChars]

/-- On sequences whose first segment prints nonempty, the path string's
characters are `encChars`. -/
theorem encode_data (s : Seg) (r : List Seg) (h : segStr s ≠ "") :
    (encode (s :: r)).data = encChars (s :: r) := by
  rw [encode, List.foldl_cons, encChars_eq]
  have h0 : childPath "" s = segStr s := by rw [childPath, if_pos rfl]
  rw [h0, foldl_childPath_data r (segStr s) h]
  rfl

/-- Two dot-free blocks followed by continuations that are empty or
dot-initial can be recovered from their concatenation. -/
theorem block_eq :
    ∀ (a b u v : List Char), '.' ∉ a → '.' ∉ b →
      (u = [] ∨ ∃ w, u = '.' :: w) → (v = [] ∨ ∃ w, v = '.' :: w) →
      a ++ u = b ++ v → a = b ∧ u = v := by
  intro a
  induction a with
  | nil =>
      intro b u v _ hb hu _ h
      cases b with
      | nil => exact ⟨rfl, by simpa using h⟩
      | cons d b' =>
          exfalso
          rcases hu with rfl | ⟨w, rfl⟩
          · simp at h
          · rw [List.nil_append, List.cons_append] at h
            have hd : '.' = d := by injection h
            exact hb (hd ▸ List.mem_cons_self d b')
  | cons c a' ih =>
      intro b u v ha hb hu hv h
      cases b with
      | nil =>
          exfalso
          rcases hv with rfl | ⟨w, rfl⟩
          · simp at h
          · rw [List.nil_append, List.cons_append] at h
            have hd : c = '.' := by injection h
            exact ha (hd ▸ List.mem_cons_self c a')
      | cons d b' =>
          rw [List.cons_append, List.cons_append] at h
          have hcd : c = d := by injection h
          have htail : a' ++ u = b' ++ v := by injection h
          obtain ⟨h1, h2⟩ := ih b' u v
            (fun hm => ha (List.mem_cons_of_mem _ hm))
            (fun hm => hb (List.mem_cons_of_mem _ hm)) hu hv htail
          exact ⟨by rw [hcd, h1], h2⟩

/-- A key is benign for path uniqueness when it is nonempty, contains no
dot, and does not look like an index (no leading `[`). -/
def goodKey (k : String) : Bool :=
  decide (k ≠ "") && decide ('.' ∉ k.data) && decide (k.data.head? ≠ some '[')

/-- A segment is benign: a field with a benign key, or any index. -/
def GoodSeg : Seg → Prop
  | .field k => goodKey k = true
  | .index _ => True

theorem goodKey_iff (k : String) :
    goodKey k = true ↔ k ≠ "" ∧ '.' ∉ k.data ∧ k.data.head? ≠ some '[' := by
  simp [goodKey, and_assoc]

theorem segChars_index (i : Nat) :
    segChars (.index i) = '[' :: (Nat.repr i).data ++ [']'] := rfl

theorem isDigit_ne (c : Char) (h : c.isDigit = true) :
    c ≠ '.' ∧ c ≠ '[' ∧ c ≠ ']' := by
  refine ⟨?_, ?_, ?_⟩ <;> (rintro rfl; exact absurd h (by decide))

theorem segChars_ne_nil (s : Seg) (h : GoodSeg s) : segChars s ≠ [] := by
  match s with
  | .field k =>
      obtain ⟨hk, -, -⟩ := (goodKey_iff k).1 h
      exact (str_ne_empty_iff k).1 hk
  | .index i => simp [segChars_index]

theorem dot_not_mem_segChars (s : Seg) (h : GoodSeg s) : '.' ∉ segChars s := by
  match s with
  | .field k =>
      obtain ⟨-, hk, -⟩ := (goodKey_iff k).1 h
      exact hk
  | .index i =>
      rw [segChars_index]
      intro hm
      rcases List.mem_cons.1 hm with hc | hm
      · exact absurd hc.symm (by decide)
      · rcases List.mem_append.1 hm with hm | hm
        · exact (isDigit_ne '.' (natRepr_digits i '.' hm)).1 rfl
        · rcases List.mem_singleton.1 hm with hc
          exact absurd hc (by decide)

theorem segChars_inj (s t : Seg) (hs : GoodSeg s) (ht : GoodSeg t)
    (h : segChars s = segChars t) : s = t := by
  match s, t with
  | .field k, .field k' =>
      rw [show Seg.field k = Seg.field k' from congrArg Seg.field (String.ext h)]
  | .field k, .index j =>
      exfalso
      obtain ⟨-, -, hk⟩ := (goodKey_iff k).1 hs
      apply hk
      have := congrArg List.head? h
      rw [segChars_index] at this
      simpa [segChars] using this
  | .index i, .field k =>
      exfalso
      obtain ⟨-, -, hk⟩ := (goodKey_iff k).1 ht
      apply hk
      have := congrArg List.head? h
      rw [segChars_index] at this
      simpa [segChars] using this.symm
  | .index i, .index j =>
      rw [segChars_index, segChars_index, List.cons_append, List.cons_append] at h
      have htail : (Nat.repr i).data ++ [']'] = (Nat.repr j).data ++ [']'] := by
        injection h
      have hdata : (Nat.repr i).data = (Nat.repr j).data :=
        (List.append_inj' htail rfl).1
      rw [natRepr_injective i j (String.ext hdata)]

theorem dotChars_shape (r : List Seg) :
    dotChars r = [] ∨ ∃ w, dotChars r = '.' :: w := by
  cases r with
  | nil => exact Or.inl rfl
  | cons s r' => exact Or.inr ⟨segChars s ++ dotChars r', rfl⟩

theorem encChars_inj :
    ∀ (p q : List Seg), (∀ s ∈ p, GoodSeg s) → (∀ s ∈ q, GoodSeg s) →
      encChars p = encChars q → p = q := by
  intro p
  induction p with
  | nil =>
      intro q _ hq h
      cases q with
      | nil => rfl
      | cons t q' =>
          exfalso
          rw [encChars_eq] at h
          exact segChars_ne_nil t (hq t (List.mem_cons_self t q'))
            (List.append_eq_nil.1 h.symm).1
  | cons s p' ih =>
      intro q hp hq h
      cases q with
      | nil =>
          exfalso
          rw [encChars_eq] at h
          exact segChars_ne_nil s (hp s (List.mem_cons_self s p'))
            (List.append_eq_nil.1 h).1
      | cons t q' =>
          rw [encChars_eq, encChars_eq] at h
          obtain ⟨h1, h2⟩ := block_eq (segChars s) (segChars t)
            (dotChars p') (dotChars q')
            (dot_not_mem_segChars s (hp s (List.mem_cons_self s p')))
            (dot_not_mem_segChars t (hq t (List.mem_cons_self t q')))
            (dotChars_shape p') (dotChars_shape q') h
          have hst : s = t :=
            segChars_inj s t (hp s (List.mem_cons_self s p'))
              (hq t (List.mem_cons_self t q')) h1
          subst hst
          have htails : p' = q' := by
            match p', q', h2 with
            | [], [], _ => rfl
            | [], b :: q'', h2 =>
                exfalso
                rw [dotChars_cons] at h2
                simp [dotChars] at h2
            | a :: p'', [], h2 =>
                exfalso
                rw [dotChars_cons] at h2
                simp [dotChars] at h2
            | a :: p'', b :: q'', h2 =>
                rw [dotChars_cons, dotChars_cons] at h2
                have henc : encChars (a :: p'') = encChars (b :: q'') := by
                  injection h2
                exact ih (b :: q'')
                  (fun x hx => hp x (List.mem_cons_of_mem s hx))
                  (fun x hx => hq x (List.mem_cons_of_mem s hx)) henc
          rw [htails]

/-- Path-string encoding is injective on sequences of benign segments. -/
theorem encode_inj_good (p q : List Seg)
    (hp : ∀ s ∈ p, GoodSeg s) (hq : ∀ s ∈ q, GoodSeg s)
    (h : encode p = encode q) : p = q := by
  cases p with
  | nil =>
      cases q with
      | nil => rfl
      | cons t q' =>
          exfalso
          apply encode_cons_ne_empty t q'
          · rw [str_ne_empty_iff]
            exact segChars_ne_nil t (hq t (List.mem_cons_self t q'))
          · exact h.symm
  | cons s p' =>
      cases q with
      | nil =>
          exfalso
          apply encode_cons_ne_empty s p'
          · rw [str_ne_empty_iff]
            exact segChars_ne_nil s (hp s (List.mem_cons_self s p'))
          · exact h
      | cons t q' =>
          apply encChars_inj (s :: p') (t :: q') hp hq
          rw [← encode_data s p', ← encode_data t q', h]
          · rw [str_ne_empty_iff]
            exact segChars_ne_nil t (hq t (List.mem_cons_self t q'))
          · rw [str_ne_empty_iff]
            exact segChars_ne_nil s (hp s (List.mem_cons_self s p'))

mutual
/-- Every object key of the document is benign (nonempty, dot-free, not
index-like). -/
def goodVal : JsonValue → Bool
  | .obj fields => goodValFields fields
  | .arr items => goodValItems items
  | _ => true

/-- Object branch of `goodVal`. -/
def goodValFields : List (String × JsonValue) → Bool
  | [] => true
  | (k, v) :: rest => goodKey k && goodVal v && goodValFields rest

/-- Array branch of `goodVal`. -/
def goodValItems : List JsonValue → Bool
  | [] => true
  | v :: rest => goodVal v && goodValItems rest
end

mutual
/-- In a document with benign keys, every segment of every position is
benign. -/
theorem positions_good (v : JsonValue) (hv : goodVal v = true) :
    ∀ p ∈ positions v, ∀ s ∈ p, GoodSeg s := by
  match v with
  | .null => simp [positions]
  | .bool _ => simp [positions]
  | .num _ => simp [positions]
  | .str _ => simp [positions]
  | .obj fields =>
      intro p hp
      rw [positions] at hp
      rcases List.mem_cons.1 hp with rfl | hp
      · simp
      · exact positionsFields_good fields (by simpa [goodVal] using hv) p hp
  | .arr items =>
      intro p hp
      rw [positions] at hp
      rcases List.mem_cons.1 hp with rfl | hp
      · simp
      · exact positionsItems_good items 0 (by simpa [goodVal] using hv) p hp

/-- Object branch of `positions_good`. -/
theorem positionsFields_good (fields : List (String × JsonValue))
    (hv : goodValFields fields = true) :
    ∀ p ∈ positionsFields fields, ∀ s ∈ p, GoodSeg s := by
  match fields with
  | [] => simp [positionsFields]
  | (k, v) :: rest =>
      intro p hp
      rw [positionsFields] at hp
      have hk : goodKey k = true ∧ goodVal v = true ∧ goodValFields rest = true := by
        simpa [goodValFields, and_assoc] using hv
      rcases List.mem_append.1 hp with hp | hp
      · obtain ⟨p', hp', rfl⟩ := List.mem_map.1 hp
        intro s hs
        rcases List.mem_cons.1 hs with rfl | hs
        · exact hk.1
        · exact positions_good v hk.2.1 p' hp' s hs
      · exact positionsFields_good rest hk.2.2 p hp

/-- Array branch of `positions_good`. -/
theorem positionsItems_good (items : List JsonValue) (i : Nat)
    (hv : goodValItems items = true) :
    ∀ p ∈ positionsItems items i, ∀ s ∈ p, GoodSeg s := by
  match items with
  | [] => simp [positionsItems]
  | v :: rest =>
      intro p hp
      rw [positionsItems] at hp
      have hk : goodVal v = true ∧ goodValItems rest = true := by
        simpa [goodValItems] using hv
      rcases List.mem_append.1 hp with hp | hp
      · obtain ⟨p', hp', rfl⟩ := List.mem_map.1 hp
        intro s hs
        rcases List.mem_cons.1 hs with rfl | hs
        · trivial
        · exact positions_good v hk.1 p' hp' s hs
      · exact positionsItems_good rest (i + 1) hk.2 p hp
end

/-- C4, counterexample to the claim as stated: with an empty-named first
field the accumulated path is empty, so the second segment is NOT
dot-prefixed (`encode [Field(""), Field("b")] = "b"`, not `".b"`). -/
theorem c4_counterexample :
    encode [Seg.field "", Seg.field "b"] ≠
      encode [Seg.field ""] ++ "." ++ segStr (Seg.field "b") := by
  decide

/-- C4 (amended): `encode([]) = ""`, `encode([Field("a")]) = "a"`,
`encode([Field("a"), Index(1)]) = "a.[1]"`, `encode([Index(0)]) = "[0]"`;
the first segment never receives a leading dot regardless of kind, and
every subsequent segment is dot-prefixed regardless of kind PROVIDED the
already-accumulated path is nonempty — which holds whenever the leading
segment prints nonempty (in particular for every index and every
nonempty field name); an empty-named field collapses to an empty
accumulated path and the following segment then loses its dot. -/
theorem c4_encode_spec :
    encode ([] : List Seg) = "" ∧
    encode [Seg.field "a"] = "a" ∧
    encode [Seg.field "a", Seg.index 1] = "a.[1]" ∧
    encode [Seg.index 0] = "[0]" ∧
    (∀ s : Seg, encode [s] = segStr s) ∧
    (∀ (segs : List Seg) (s : Seg), encode segs ≠ "" →
      encode (segs ++ [s]) = encode segs ++ "." ++ segStr s) ∧
    (∀ (s : Seg) (r : List Seg), segStr s ≠ "" → encode (s :: r) ≠ "") := by
  refine ⟨by decide, by decide, by decide, by decide, ?_, ?_, ?_⟩
  · intro s
    simp [encode, childPath]
  · intro segs s h
    rw [encode_append_last, childPath, if_neg h]
  · intro s r h
    exact encode_cons_ne_empty s r h

/-- Witness for the amended C4 at a concrete input. -/
theorem c4_encode_spec_witness :
    encode [Seg.field "a"] ≠ "" ∧
    encode ([Seg.field "a"] ++ [Seg.index 1]) =
      encode [Seg.field "a"] ++ "." ++ segStr (Seg.index 1) :=
  ⟨by decide, c4_encode_spec.2.2.2.2.2.1 [Seg.field "a"] (Seg.index 1) (by decide)⟩

/-- C7, counterexample to the claim as stated: in the document
`{"": null}` the root position and the position of the empty-named field
both receive the path string `""`. -/
theorem c7_counterexample :
    ([] : List Seg) ∈ positions (JsonValue.obj [("", JsonValue.null)]) ∧
    [Seg.field ""] ∈ positions (JsonValue.obj [("", JsonValue.null)]) ∧
    ([] : List Seg) ≠ [Seg.field ""] ∧
    encode [] = encode [Seg.field ""] := by
  refine ⟨?_, ?_, by simp, by decide⟩ <;>
    simp [positions, positionsFields]

/-- C7 (amended): the path-string assignment is injective over the tree
positions of a document provided every object key is benign — nonempty,
containing no `.`, and not starting with `[`.  Without that proviso,
empty keys collide with their parent, dotted keys collide with nested
fields, and `[i]`-shaped keys collide with array indices. -/
theorem c7_path_injective (doc : JsonValue) (h : goodVal doc = true) :
    ∀ p ∈ positions doc, ∀ q ∈ positions doc, encode p = encode q → p = q := by
  intro p hp q hq he
  exact encode_inj_good p q (positions_good doc h p hp)
    (positions_good doc h q hq) he

/-- Witness for the amended C7 at a concrete document. -/
theorem c7_path_injective_witness :
    goodVal (JsonValue.obj [("a", JsonValue.obj [("b", JsonValue.null)])]) = true ∧
    ∀ p ∈ positions (JsonValue.obj [("a", JsonValue.obj [("b", JsonValue.null)])]),
      ∀ q ∈ positions (JsonValue.obj [("a", JsonValue.obj [("b", JsonValue.null)])]),
        encode p = encode q → p = q := by
  have hg : goodVal (JsonValue.obj [("a", JsonValue.obj [("b", JsonValue.null)])]) = true := by
    simp [goodVal, goodValFields]
    decide
  exact ⟨hg, c7_path_injective _ hg⟩

/-- C1: on a non-blank expression with N ≥ 1 matches, `_task` succeeds
with the highlight list holding each match's normalized path string (a
root-level match as `""`, not `"$"`), and the expand set holding exactly
the normalized path strings of every node on every match's ancestor
chain — the match itself, each proper ancestor, and the empty-string
root — and nothing else; consequently every highlight's proper ancestors
(and the highlight itself) are in the expand set. -/
theorem c1_matches (data : JsonValue) (expression : Option String)
    (ms : List (List Seg)) (hb : isBlank expression = false) (hne : ms ≠ []) :
    task data expression (.matches ms) =
      .ok ⟨data, ms.map (fun m => normPath (fullPathStr m)), taskExpands ms,
           expression.getD ""⟩ ∧
    (∀ s, s ∈ taskExpands ms ↔
      ∃ m ∈ ms, ∃ k, k ≤ m.length ∧ s = normPath (fullPathStr (m.take k))) ∧
    (∀ m ∈ ms, ∀ k, k < m.length →
      normPath (fullPathStr (m.take k)) ∈ taskExpands ms) ∧
    (∀ m ∈ ms, normPath (fullPathStr m) ∈ taskExpands ms) ∧
    ("" : String) ∈ taskExpands ms := by
  refine ⟨by simp [task, hb], mem_taskExpands_of_ne_nil ms hne, ?_, ?_, ?_⟩
  · intro m hm k hk
    exact (mem_taskExpands_of_ne_nil ms hne _).2 ⟨m, hm, k, Nat.le_of_lt hk, rfl⟩
  · intro m hm
    have := (mem_taskExpands_of_ne_nil ms hne _).2
      ⟨m, hm, m.length, Nat.le_refl _, rfl⟩
    simpa [List.take_length] using this
  · obtain ⟨m, hm⟩ := List.exists_mem_of_ne_nil ms hne
    exact (mem_taskExpands_of_ne_nil ms hne _).2
      ⟨m, hm, 0, Nat.zero_le _, (norm_fullPathStr_take_zero m).symm⟩

/-- Witness for C1: document `{"a": {"b": 1}, "c": 2}`, expression
`$.a.b`, one match at `a.b`. -/
theorem c1_matches_witness :
    isBlank (some "$.a.b") = false ∧ [[Seg.field "a", Seg.field "b"]] ≠ [] ∧
    (task (JsonValue.obj [("a", JsonValue.obj [("b", JsonValue.num 1)]),
        ("c", JsonValue.num 2)]) (some "$.a.b")
        (.matches [[Seg.field "a", Seg.field "b"]]) =
      .ok ⟨JsonValue.obj [("a", JsonValue.obj [("b", JsonValue.num 1)]),
            ("c", JsonValue.num 2)],
           [[Seg.field "a", Seg.field "b"]].map (fun m => normPath (fullPathStr m)),
           taskExpands [[Seg.field "a", Seg.field "b"]],
           (some "$.a.b").getD ""⟩ ∧
     (∀ s, s ∈ taskExpands [[Seg.field "a", Seg.field "b"]] ↔
       ∃ m ∈ [[Seg.field "a", Seg.field "b"]], ∃ k, k ≤ m.length ∧
         s = normPath (fullPathStr (m.take k))) ∧
     (∀ m ∈ [[Seg.field "a", Seg.field "b"]], ∀ k, k < m.length →
       normPath (fullPathStr (m.take k)) ∈ taskExpands [[Seg.field "a", Seg.field "b"]]) ∧
     (∀ m ∈ [[Seg.field "a", Seg.field "b"]],
       normPath (fullPathStr m) ∈ taskExpands [[Seg.field "a", Seg.field "b"]]) ∧
     ("" : String) ∈ taskExpands [[Seg.field "a", Seg.field "b"]]) :=
  ⟨by decide, by decide, c1_matches _ (some "$.a.b") _ (by decide) (by decide)⟩

/-- C2: a blank (empty or whitespace-only) expression resets the filter:
no highlights, the expand set is exactly the path strings of every node
of the document, the echoed expression is empty; the result does not
depend on the evaluator outcome (hence repeating the blank filter is
idempotent), and the post-load script of the empty expression removes
the collapsed state from every container, fully re-opening the tree. -/
theorem c2_blank_resets (data : JsonValue) (expression : Option String)
    (outcome outcome' : EvalOutcome) (hb : isBlank expression = true) :
    task data expression outcome = .ok ⟨data, [], collect_paths data "", ""⟩ ∧
    (∀ s, s ∈ collect_paths data "" ↔ ∃ p ∈ positions data, s = encode p) ∧
    task data expression outcome' = task data expression outcome ∧
    (∀ (containers allNodes : Finset String) (highlights : List String)
        (expands : Finset String),
      applyScript containers allNodes "" highlights expands = (∅, ∅)) := by
  refine ⟨by simp [task, hb], ?_, by simp [task, hb], ?_⟩
  · intro s
    simpa [encode] using mem_collect_paths data "" s
  · intro containers allNodes highlights expands
    simp [applyScript]

/-- Witness for C2: document `{"a": {"b": 1}, "c": 2}`, whitespace
expression. -/
theorem c2_blank_resets_witness :
    isBlank (some "  ") = true ∧
    (task (JsonValue.obj [("a", JsonValue.obj [("b", JsonValue.num 1)]),
        ("c", JsonValue.num 2)]) (some "  ") (.matches []) =
      .ok ⟨JsonValue.obj [("a", JsonValue.obj [("b", JsonValue.num 1)]),
            ("c", JsonValue.num 2)],
           [],
           collect_paths (JsonValue.obj [("a", JsonValue.obj [("b", JsonValue.num 1)]),
            ("c", JsonValue.num 2)]) "", ""⟩ ∧
     (∀ s, s ∈ collect_paths (JsonValue.obj [("a", JsonValue.obj [("b", JsonValue.num 1)]),
            ("c", JsonValue.num 2)]) "" ↔
       ∃ p ∈ positions (JsonValue.obj [("a", JsonValue.obj [("b", JsonValue.num 1)]),
            ("c", JsonValue.num 2)]), s = encode p) ∧
     task (JsonValue.obj [("a", JsonValue.obj [("b", JsonValue.num 1)]),
        ("c", JsonValue.num 2)]) (some "  ") (.parseError "boom") =
       task (JsonValue.obj [("a", JsonValue.obj [("b", JsonValue.num 1)]),
        ("c", JsonValue.num 2)]) (some "  ") (.matches []) ∧
     (∀ (containers allNodes : Finset String) (highlights : List String)
        (expands : Finset String),
      applyScript containers allNodes "" highlights expands = (∅, ∅))) :=
  ⟨by decide, c2_blank_resets _ (some "  ") (.matches []) (.parseError "boom") (by decide)⟩

/-- C3: a non-blank expression evaluating to zero matches is not an
error: `_task` succeeds with no highlights and the expand set exactly
`{""}` (root only — the tree fully collapses to signal no results, root
excepted). -/
theorem c3_zero_matches (data : JsonValue) (expression : Option String)
    (hb : isBlank expression = false) :
    task data expression (.matches []) =
      .ok ⟨data, [], {""}, expression.getD ""⟩ := by
  simp [task, hb, taskExpands]

/-- Witness for C3: document `{"a": {"b": 1}, "c": 2}`, expression
`$.d`, no matches. -/
theorem c3_zero_matches_witness :
    isBlank (some "$.d") = false ∧
    task (JsonValue.obj [("a", JsonValue.obj [("b", JsonValue.num 1)]),
        ("c", JsonValue.num 2)]) (some "$.d") (.matches []) =
      .ok ⟨JsonValue.obj [("a", JsonValue.obj [("b", JsonValue.num 1)]),
            ("c", JsonValue.num 2)], [], {""}, (some "$.d").getD ""⟩ :=
  ⟨by decide, c3_zero_matches _ (some "$.d") (by decide)⟩

/-- C5: any evaluation failure on a non-blank expression — a parse
failure with its own message, or any other exception wrapped as
`"Filter error"` — surfaces an error dialog with that message, then
applies the reset state: the full unfiltered document, no highlights,
every container expanded by the empty-expression script branch, and the
filter-result callback is still invoked with `("", 0)` (webview present
and callback registered). -/
theorem c5_failure_surfacing (jsonData : JsonValue) (expression : Option String)
    (msg : String) (hb : isBlank expression = false) :
    pipeline jsonData expression (.parseError msg) true true =
      (⟨some msg, jsonData, [], {""}, "", 0⟩, ⟨true, ∅, ∅, some ("", 0)⟩) ∧
    pipeline jsonData expression (.evalError msg) true true =
      (⟨some "Filter error", jsonData, [], {""}, "", 0⟩,
       ⟨true, ∅, ∅, some ("", 0)⟩) := by
  constructor <;> simp [pipeline, task, done, render, applyScript, hb]

/-- Witness for C5 at a concrete failing request. -/
theorem c5_failure_surfacing_witness :
    isBlank (some "$.a[") = false ∧
    (pipeline (JsonValue.obj [("a", JsonValue.num 1)]) (some "$.a[")
        (.parseError "unbalanced bracket") true true =
      (⟨some "unbalanced bracket", JsonValue.obj [("a", JsonValue.num 1)],
        [], {""}, "", 0⟩, ⟨true, ∅, ∅, some ("", 0)⟩) ∧
     pipeline (JsonValue.obj [("a", JsonValue.num 1)]) (some "$.a[")
        (.evalError "unbalanced bracket") true true =
      (⟨some "Filter error", JsonValue.obj [("a", JsonValue.num 1)],
        [], {""}, "", 0⟩, ⟨true, ∅, ∅, some ("", 0)⟩)) :=
  ⟨by decide, c5_failure_surfacing _ (some "$.a[") "unbalanced bracket" (by decide)⟩

/-- C6, counterexample to the claim as stated: after a successful filter
`$.a.b` on `{"a": {"b": 1}, "c": {"d": 2}}` the displayed state carries
highlights `["a.b"]` and expands `{"", "a", "a.b"}`; a subsequent
malformed expression does NOT leave that state in effect — the handler
re-renders with the reset state `[], {""}`, which differs in both
components. -/
theorem c6_counterexample :
    (done (JsonValue.obj [("a", JsonValue.obj [("b", JsonValue.num 1)]),
        ("c", JsonValue.obj [("d", JsonValue.num 2)])])
      (task (JsonValue.obj [("a", JsonValue.obj [("b", JsonValue.num 1)]),
        ("c", JsonValue.obj [("d", JsonValue.num 2)])])
        (some "$.x[") (.parseError "Unexpected token"))).highlights ≠
      (done (JsonValue.obj [("a", JsonValue.obj [("b", JsonValue.num 1)]),
        ("c", JsonValue.obj [("d", JsonValue.num 2)])])
        (task (JsonValue.obj [("a", JsonValue.obj [("b", JsonValue.num 1)]),
          ("c", JsonValue.obj [("d", JsonValue.num 2)])])
          (some "$.a.b") (.matches [[Seg.field "a", Seg.field "b"]]))).highlights ∧
    (done (JsonValue.obj [("a", JsonValue.obj [("b", JsonValue.num 1)]),
        ("c", JsonValue.obj [("d", JsonValue.num 2)])])
      (task (JsonValue.obj [("a", JsonValue.obj [("b", JsonValue.num 1)]),
        ("c", JsonValue.obj [("d", JsonValue.num 2)])])
        (some "$.x[") (.parseError "Unexpected token"))).expands ≠
      (done (JsonValue.obj [("a", JsonValue.obj [("b", JsonValue.num 1)]),
        ("c", JsonValue.obj [("d", JsonValue.num 2)])])
        (task (JsonValue.obj [("a", JsonValue.obj [("b", JsonValue.num 1)]),
          ("c", JsonValue.obj [("d", JsonValue.num 2)])])
          (some "$.a.b") (.matches [[Seg.field "a", Seg.field "b"]]))).expands := by
  decide

/-- C6 (amended): a malformed expression makes `_task` raise a
QueryError without returning any half-applied highlight/expand state;
the previously displayed state does not remain in effect, however — the
completion handler substitutes the reset tuple (no highlights, root-only
expand set, empty echoed expression), which the empty-expression render
branch turns into a fully expanded unfiltered tree. -/
theorem c6_malformed (jsonData : JsonValue) (expression : Option String)
    (msg : String) (hb : isBlank expression = false) :
    task jsonData expression (.parseError msg) = .error msg ∧
    done jsonData (task jsonData expression (.parseError msg)) =
      ⟨some msg, jsonData, [], {""}, "", 0⟩ := by
  constructor <;> simp [task, done, hb]

/-- Witness for the amended C6 at a concrete malformed request. -/
theorem c6_malformed_witness :
    isBlank (some "$.x[") = false ∧
    (task JsonValue.null (some "$.x[") (.parseError "Unexpected token") =
      .error "Unexpected token" ∧
     done JsonValue.null (task JsonValue.null (some "$.x[")
        (.parseError "Unexpected token")) =
      ⟨some "Unexpected token", JsonValue.null, [], {""}, "", 0⟩) :=
  ⟨by decide, c6_malformed JsonValue.null (some "$.x[") "Unexpected token" (by decide)⟩

/-- C9: whatever the expression and evaluator outcome, the tree value
handed to `_render` is the cached parsed document itself — filtering
never prunes or replaces the cached `JsonValue`. -/
theorem c9_tree_unchanged (jsonData : JsonValue) (expression : Option String)
    (outcome : EvalOutcome) :
    (done jsonData (task jsonData expression outcome)).data = jsonData := by
  by_cases hb : isBlank expression = true
  · simp [task, hb, done]
  · have hb' : isBlank expression = false := by simpa using hb
    cases outcome <;> simp [task, hb', done]

/-- C8: `_generate_html` serializes the document (indented, key-sorted)
solely to count lines — the flag handed to the renderer is exactly
`line_count > collapse_lines` and nothing else of the serialization
reaches the body; containers render their class list via `blockClasses`
at their own level, children recurse at `level + 1`, and `blockClasses`
is `"jblock collapsed"` precisely when the flag is set AND the level is
positive — so when the threshold is exceeded every non-root container
starts collapsed while the root (level 0) never does, and when it is not
exceeded every container starts expanded. -/
theorem c8_collapse_policy (data : JsonValue) (collapseLines tw : Nat)
    (css js : String) (fields : List (String × JsonValue)) (k : String)
    (v : JsonValue) (items : List JsonValue) (i : Nat) (collapse : Bool)
    (level : Nat) (path : String) :
    generateHtml data collapseLines tw css js =
      "<html><head><meta charset=\x27utf-8\x27>" ++ "<style>" ++ css ++ "</style>"
        ++ "</head><body><pre>"
        ++ valueToHtml data (decide (collapseLines < lineCount data tw)) 0 ""
        ++ "</pre>" ++ "<script>" ++ js ++ "</script>" ++ "</body></html>" ∧
    valueToHtml (.obj fields) collapse level path =
      "<div class=\"" ++ blockClasses collapse level ++ "\" data-jpath=\""
        ++ path ++ "\">"
        ++ "<span class=\x27jtoggler\x27></span>\x7b"
        ++ "<div class=\x27children\x27>" ++ objItems fields collapse level path
        ++ "</div>\x7d</div>" ∧
    valueToHtml (.arr items) collapse level path =
      "<div class=\"" ++ blockClasses collapse level ++ "\" data-jpath=\""
        ++ path ++ "\">"
        ++ "<span class=\"jtoggler\"></span>["
        ++ "<div class=\"children\">" ++ arrItems items 0 collapse level path
        ++ "</div>]</div>" ∧
    objItems ((k, v) :: fields) collapse level path =
      "<div class=\"jitem\"><span class=\"jkey\">\"" ++ escape k
        ++ "\"</span>: "
        ++ valueToHtml v collapse (level + 1) (childPath path (.field k))
        ++ "</div>"
        ++ objItems fields collapse level path ∧
    arrItems (v :: items) i collapse level path =
      "<div class=\"jitem\">"
        ++ valueToHtml v collapse (level + 1) (childPath path (.index i))
        ++ "</div>"
        ++ arrItems items (i + 1) collapse level path ∧
    blockClasses collapse level =
      (if collapse = true ∧ 0 < level then "jblock collapsed" else "jblock") := by
  refine ⟨rfl, by simp [valueToHtml], by simp [valueToHtml],
    by simp [objItems], by simp [arrItems], ?_⟩
  by_cases h : collapse = true ∧ 0 < level
  · rw [blockClasses, if_pos h, if_pos h]
    decide
  · rw [blockClasses, if_neg h, if_neg h]
    decide

/-- C10: a boolean leaf renders as a `jbool` span carrying the node's
own `data-jpath` and exactly the lowercase text `true` / `false`
(`str(value).lower()`), and its rendering never coincides with the
numeric fallback's `jnum` span — the boolean branch is matched before
the number branch. -/
theorem c10_bool_render (b collapse : Bool) (level : Nat) (path : String) :
    valueToHtml (.bool b) collapse level path =
      "<span class=\"jbool\" data-jpath=\"" ++ path ++ "\">"
        ++ (if b then "true" else "false") ++ "</span>" ∧
    ∀ n : Int, valueToHtml (.bool b) collapse level path ≠
      valueToHtml (.num n) collapse level path := by
  have hbool : valueToHtml (.bool b) collapse level path =
      "<span class=\"jbool\" data-jpath=\"" ++ path ++ "\">"
        ++ (if b then "true" else "false") ++ "</span>" := by
    simp [valueToHtml]
  refine ⟨hbool, ?_⟩
  intro n h
  have hnum : valueToHtml (.num n) collapse level path =
      "<span class=\"jnum\" data-jpath=\"" ++ path ++ "\">" ++ toString n
        ++ "</span>" := by
    simp [valueToHtml]
  rw [hbool, hnum] at h
  have h14 := congrArg (fun s => s.data[14]?) h
  simp only [String.data_append, List.append_assoc] at h14
  rw [List.getElem?_append_left (by decide),
    List.getElem?_append_left (by decide)] at h14
  exact absurd h14 (by decide)
